import Mathlib

/-!
Verification of the position-mapped text buffer core of the dts-tool
repository: `binarySearch` (binarySearch.js), the `LineMap` offset index
(LineMap.js) and the `MappedSource` mapped buffer (MappedSource.js).

Texts are modelled as `List Char`, JS numbers used as indices as `Int`
(all index arithmetic in the sources stays integral).  A JS comparison
or arithmetic step whose result is `NaN`, and a JS `undefined` array
read, are modelled with `Option` (`none` = NaN/undefined); the places
where the sources can produce them are noted at each definition.
-/

namespace DtsTool

/-! ### binarySearch.js

`binarySearch(sortedArray, compare_items, item)` loops with `left`,
`right` cursors; `compare_items(foundVal, item)` is a JS number that can
be `NaN` (e.g. when `foundVal` is an object and the comparator subtracts
it from a number), so the comparator here returns `Option Int`, `none`
meaning NaN.  An out-of-bounds read gives `undefined`, and
`undefined - x` is also NaN, hence the `Option.bind`.  In JS, both
`NaN == 0` and `NaN < 0` are false, so a NaN comparison takes the
`right = mid - 1` branch. -/

def bsGo {α β : Type} (l : List α) (cmp : α → β → Option Int) (item : β)
    (left : Nat) (right : Int) : Int :=
  if h : (left : Int) ≤ right then
    -- mid = Math.floor((left + right) / 2); both cursors are ≥ 0 here
    let mid : Nat := (left + right.toNat) / 2
    match (l[mid]?).bind (fun v => cmp v item) with
    | some c =>
      if c = 0 then (mid : Int)
      else if c < 0 then bsGo l cmp item (mid + 1) right
      else bsGo l cmp item left ((mid : Int) - 1)
    | none => bsGo l cmp item left ((mid : Int) - 1)
  else
    -- Not found, return where (convert back to insert position with (-retv-1)
    -1 - (left : Int)
termination_by (right + 1 - left).toNat
decreasing_by
  all_goals omega

def binarySearch {α β : Type} (l : List α) (cmp : α → β → Option Int)
    (item : β) : Int :=
  bsGo l cmp item 0 ((l.length : Int) - 1)

/-- The numeric comparator `(a, b) => a - b` applied to two numbers. -/
def numCmp : Int → Int → Option Int := fun a b => some (a - b)

/-- Instrumented variant of `bsGo` that fails (`none`) instead of reading
outside the array; used to certify that the search never reads out of
bounds. -/
def bsGoChecked {α β : Type} (l : List α) (cmp : α → β → Option Int)
    (item : β) (left : Nat) (right : Int) : Option Int :=
  if h : (left : Int) ≤ right then
    let mid : Nat := (left + right.toNat) / 2
    match l[mid]? with
    | none => none
    | some v =>
      match cmp v item with
      | some c =>
        if c = 0 then some (mid : Int)
        else if c < 0 then bsGoChecked l cmp item (mid + 1) right
        else bsGoChecked l cmp item left ((mid : Int) - 1)
      | none => bsGoChecked l cmp item left ((mid : Int) - 1)
  else
    some (-1 - (left : Int))
termination_by (right + 1 - left).toNat
decreasing_by
  all_goals omega

def binarySearchChecked {α β : Type} (l : List α) (cmp : α → β → Option Int)
    (item : β) : Option Int :=
  bsGoChecked l cmp item 0 ((l.length : Int) - 1)

/-! ### MappedSource.js -/

/-- One mapping point of a `MappedSource` (the `MappedPoint` typedef). -/
structure MapPoint where
  offset : Int
  name : String
  source : String
  originalLine : Int
  originalColumn : Int
deriving Repr, DecidableEq

/-- JS `String.prototype.substring(start, end)`: both arguments are
clamped into `[0, length]` and swapped when inverted, then the slice
`[from, to)` is returned. -/
def jsSubstring (s : List Char) (start fin : Int) : List Char :=
  let a := min (max start 0) (s.length : Int)
  let b := min (max fin 0) (s.length : Int)
  let lo := min a b
  let hi := max a b
  (s.take hi.toNat).drop lo.toNat

structure MappedSource where
  source : List Char
  map : List MapPoint
deriving Repr, DecidableEq

/-- The argument of `splice`: a plain string or another `MappedSource`
(JS discriminates with `string instanceof MappedSource`). -/
inductive SpliceArg where
  | str : List Char → SpliceArg
  | ms : MappedSource → SpliceArg

/-- The `// Update the map` loop of `splice`: each entry is visited once
in order; an entry inside the deleted span is removed
(`this.map.splice(i, 1); i--`), an entry at or past its end is shifted
by `string.length - length`, an entry before `offset` is untouched. -/
def updateMapLoop (offset length insLen : Int) : List MapPoint → List MapPoint
  | [] => []
  | m :: rest =>
    if offset ≤ m.offset then
      if m.offset < offset + length then
        updateMapLoop offset length insLen rest
      else
        { m with offset := m.offset + (insLen - length) } :: updateMapLoop offset length insLen rest
    else
      m :: updateMapLoop offset length insLen rest

/-- The comparator `(a, b) => a - b` as invoked from `splice`, where `a`
is a map entry (a JS object) and `b` a number: `object - number`
evaluates to NaN (`ToPrimitive` of a plain object is a string), modelled
as `none`. -/
def pointCmpNum : MapPoint → Int → Option Int := fun _ _ => none

/-- JS `Array.prototype.splice(pos, 0, ...entries)`: insert `entries` at
`pos` (clamped to the array length by `take`/`drop`). -/
def listSpliceIns (l : List MapPoint) (pos : Nat) (entries : List MapPoint) :
    List MapPoint :=
  l.take pos ++ entries ++ l.drop pos

/-- `MappedSource.splice(offset, length, string)`.  The two `throw`
statements are modelled as `Except.error` with the thrown message. -/
def MappedSource.splice (ms : MappedSource) (offset length : Int)
    (arg : SpliceArg) : Except String MappedSource :=
  if offset < 0 then .error "invalid splice offset"
  else if offset + length > (ms.source.length : Int) then
    .error "invalid splice end offset"
  else
    let insMap : Option (List MapPoint) :=
      match arg with
      | .ms m => some m.map
      | .str _ => none
    let insStr : List Char :=
      match arg with
      | .ms m => m.source
      | .str s => s
    -- this.source.substring(0, offset) + string + this.source.substring(offset + length)
    let newSource :=
      jsSubstring ms.source 0 offset ++ insStr
        ++ jsSubstring ms.source (offset + length) (ms.source.length : Int)
    let updated := updateMapLoop offset length (insStr.length : Int) ms.map
    let finalMap :=
      match insMap with
      | none => updated
      | some [] => updated          -- `if (map && map.length)` fails
      | some (m0 :: rest) =>
        let insPos0 := binarySearch updated pointCmpNum (m0.offset + offset)
        let insPos := if insPos0 < 0 then -insPos0 - 1 else insPos0
        let entries := (m0 :: rest).map fun x => { x with offset := x.offset + offset }
        listSpliceIns updated insPos.toNat entries
    .ok { source := newSource, map := finalMap }

/-- `MappedSource.substring(start, end)`: slice of the text plus every
point with `start <= offset <= end`, re-based by `-start`.  Performs no
argument validation (JS substring clamps the text indices; the map
filter uses the raw arguments). -/
def MappedSource.substring (ms : MappedSource) (start fin : Int) :
    MappedSource :=
  { source := jsSubstring ms.source start fin
    map := (ms.map.filter fun x => decide (start ≤ x.offset) && decide (x.offset ≤ fin)).map
        fun x => { x with offset := x.offset - start } }

def MappedSource.insert (ms : MappedSource) (offset : Int) (arg : SpliceArg) :
    Except String MappedSource :=
  ms.splice offset 0 arg

def MappedSource.delete (ms : MappedSource) (offset length : Int) :
    Except String MappedSource :=
  ms.splice offset length (.str [])

def MappedSource.append (ms : MappedSource) (arg : SpliceArg) :
    Except String MappedSource :=
  ms.splice (ms.source.length : Int) 0 arg

/-! ### LineMap.js -/

/-- The line-offset scan of the `LineMap` constructor, phrased over the
suffix of the text that starts at index `i` (the JS loop walks an index
`i` over the whole string; when `str[i] == '\r'` and `str[i+1] == '\n'`
it first advances `i` past the `\r`, so the pair contributes one line
start at `i + 2`; a lone `\r` or `\n` at `i` contributes `i + 1`). -/
def lineOffsetsGo (i : Nat) : List Char → List Int
  | [] => []
  | '\r' :: '\n' :: rest => ((i : Int) + 2) :: lineOffsetsGo (i + 2) rest
  | c :: rest =>
    if c = '\n' ∨ c = '\r' then ((i : Int) + 1) :: lineOffsetsGo (i + 1) rest
    else lineOffsetsGo (i + 1) rest

structure LineMap where
  totalLength : Int
  lineBase : Int
  columnBase : Int
  lineOffsets : List Int

/-- `new LineMap(str, {lineBase, columnBase})`: `lineOffsets` always
starts with `0`. -/
def LineMap.ofText (s : List Char) (lineBase columnBase : Int) : LineMap :=
  { totalLength := (s.length : Int)
    lineBase := lineBase
    columnBase := columnBase
    lineOffsets := 0 :: lineOffsetsGo 0 s }

/-- A JS array read `l[i]` with a possibly out-of-range index:
`undefined` is modelled as `none`. -/
def jsIdx (l : List Int) (i : Int) : Option Int :=
  if i < 0 then none else l[i.toNat]?

/-- `LineMap.fromOffset(offset)`.  The column is `Option Int` because it
is produced by arithmetic on an array read that can be `undefined`
(NaN); the line component is always a number. -/
def LineMap.fromOffset (lm : LineMap) (offset : Int) : Int × Option Int :=
  let r := binarySearch lm.lineOffsets numCmp offset
  let lineNumber : Int := if r < 0 then -r - 1 else r + 1
  if lineNumber < (lm.lineOffsets.length : Int) then
    (lm.lineBase + lineNumber - 1,
     (jsIdx lm.lineOffsets (lineNumber - 1)).map fun v => lm.columnBase + offset - v)
  else
    (lm.lineBase + (lm.lineOffsets.length : Int) - 1,
     (jsIdx lm.lineOffsets ((lm.lineOffsets.length : Int) - 1)).map fun v =>
        lm.columnBase + offset - v)

/-- `LineMap.toOffset(line, column)`.  When `line` (after base
adjustment) equals `lineOffsets.length` or is negative, the JS code
reads `this.lineOffsets[line]` as `undefined`, so
`offset = undefined + column` is NaN; `NaN > totalLength` is false and
the NaN is returned — modelled as `none`. -/
def LineMap.toOffset (lm : LineMap) (line column : Int) : Option Int :=
  let l := line - lm.lineBase
  let c := column - lm.columnBase
  if l > (lm.lineOffsets.length : Int) then some lm.totalLength
  else
    match jsIdx lm.lineOffsets l with
    | none => none
    | some v =>
      let offset := v + c
      some (if offset > lm.totalLength then lm.totalLength else offset)

/-! ### Specification-side definitions and concrete example buffers -/

/-- The fate of a pre-existing mapping point under `splice`, written
from the spec's words (claim C2): a point strictly before `offset` is
kept unchanged, a point inside the deleted span is removed, a point at
or beyond the span's end is shifted by `insertedLength - deleteLength`.
To be compared with `updateMapLoop`, which is translated from the
source. -/
def specSplicePointFate (offset len insLen : Int) (p : MapPoint) :
    Option MapPoint :=
  if p.offset < offset then some p
  else if p.offset < offset + len then none
  else some { p with offset := p.offset + (insLen - len) }

/-- Example buffer of the spec: `"Hello World!"` with points at 6 and 11. -/
def msHW : MappedSource :=
  ⟨"Hello World!".data, [⟨6, "p6", "s", 1, 0⟩, ⟨11, "p11", "s", 1, 1⟩]⟩

/-- Example buffer `B` of the spec: `"there "` with points at 0 and 5. -/
def msThere : MappedSource :=
  ⟨"there ".data, [⟨0, "b0", "t", 2, 0⟩, ⟨5, "b5", "t", 2, 5⟩]⟩

/-- Buffer with a point strictly before the splice offset 6 (input that
violates the sortedness invariant claim). -/
def msEarlyPoint : MappedSource :=
  ⟨"Hello World!".data, [⟨2, "a2", "s", 1, 0⟩, ⟨11, "a11", "s", 1, 1⟩]⟩

/-- Mapped insertion with a single point at 0. -/
def msThereOne : MappedSource := ⟨"there ".data, [⟨0, "b0", "t", 2, 0⟩]⟩

/-- Small buffer for the `substring` error-handling claim. -/
def msHello : MappedSource := ⟨"Hello".data, [⟨0, "n", "s", 1, 0⟩]⟩

end DtsTool

/-! ## Theorems -/

namespace DtsTool

instance : DecidableEq (Except String MappedSource) := fun a b =>
  match a, b with
  | .ok x, .ok y =>
    if h : x = y then isTrue (by rw [h]) else
      isFalse (by intro hh; cases hh; exact h rfl)
  | .error x, .error y =>
    if h : x = y then isTrue (by rw [h]) else
      isFalse (by intro hh; cases hh; exact h rfl)
  | .ok _, .error _ => isFalse (by intro h; cases h)
  | .error _, .ok _ => isFalse (by intro h; cases h)

/-- `updateMapLoop` (the in-place mutation loop of the source) computes
exactly the point policy stated by the spec. -/
theorem updateMapLoop_eq_filterMap (offset len insLen : Int)
    (l : List MapPoint) :
    updateMapLoop offset len insLen l =
      l.filterMap (specSplicePointFate offset len insLen) := by
  induction l with
  | nil => rfl
  | cons m rest ih =>
    by_cases h1 : m.offset < offset
    · have h2 : ¬ offset ≤ m.offset := by omega
      simp [updateMapLoop, List.filterMap_cons, specSplicePointFate, h1, h2, ih]
    · have h2 : offset ≤ m.offset := by omega
      by_cases h3 : m.offset < offset + len
      · simp [updateMapLoop, List.filterMap_cons, specSplicePointFate, h1, h2, h3, ih]
      · simp [updateMapLoop, List.filterMap_cons, specSplicePointFate, h1, h2, h3, ih]

/-- With a constantly-NaN comparator (the object-vs-number comparison
in `splice`), the search never takes the `left = mid + 1` branch and
returns `-1 - left`. -/
theorem bsGo_pointCmp (l : List MapPoint) (item : Int) :
    ∀ (n : Nat) (left : Nat) (right : Int), (right + 1 - left).toNat ≤ n →
      bsGo l pointCmpNum item left right = -1 - left := by
  intro n
  induction n with
  | zero =>
    intro left right h
    rw [bsGo]
    rw [dif_neg (by omega)]
  | succ n ih =>
    intro left right h
    rw [bsGo]
    by_cases hlr : (left : Int) ≤ right
    · rw [dif_pos hlr]
      have hnone : (l[(left + right.toNat) / 2]?).bind
          (fun v => pointCmpNum v item) = none := by
        cases l[(left + right.toNat) / 2]? <;> rfl
      simp only [hnone]
      exact ih left ((((left + right.toNat) / 2 : Nat) : Int) - 1) (by omega)
    · rw [dif_neg hlr]

theorem binarySearch_pointCmp (l : List MapPoint) (item : Int) :
    binarySearch l pointCmpNum item = -1 := by
  have := bsGo_pointCmp l item (((l.length : Int) - 1 + 1 - 0).toNat) 0
    ((l.length : Int) - 1) le_rfl
  simpa [binarySearch] using this

/-- One unfolding step of `bsGo` when the loop is entered and the probed
slot holds `v`. -/
theorem bsGo_step {α β : Type} (l : List α) (cmp : α → β → Option Int)
    (item : β) (left : Nat) (right : Int) (hlr : (left : Int) ≤ right)
    (v : α) (hv : l[(left + right.toNat) / 2]? = some v) :
    bsGo l cmp item left right =
      match cmp v item with
      | some c =>
        if c = 0 then (((left + right.toNat) / 2 : Nat) : Int)
        else if c < 0 then bsGo l cmp item ((left + right.toNat) / 2 + 1) right
        else bsGo l cmp item left ((((left + right.toNat) / 2 : Nat) : Int) - 1)
      | none => bsGo l cmp item left ((((left + right.toNat) / 2 : Nat) : Int) - 1) := by
  conv_lhs => rw [bsGo]
  rw [dif_pos hlr]
  simp only [hv, Option.some_bind]

/-- `bsGo` when the loop condition fails. -/
theorem bsGo_terminal {α β : Type} (l : List α) (cmp : α → β → Option Int)
    (item : β) (left : Nat) (right : Int) (hlr : ¬ (left : Int) ≤ right) :
    bsGo l cmp item left right = -1 - (left : Int) := by
  rw [bsGo, dif_neg hlr]

/-- The invariant-based characterisation of the search on a strictly
ascending list of numbers with the numeric comparator: starting from a
window `[left, right]` whose outside is already classified, the search
either returns the index of a slot holding `item`, or `-1 - p` for the
unique frontier `p` separating the elements below `item` from those
above it. -/
theorem bsGo_spec (l : List Int) (item : Int) (hsort : l.Pairwise (· < ·)) :
    ∀ (n : Nat) (left : Nat) (right : Int),
      (right + 1 - left).toNat ≤ n →
      (left : Int) ≤ right + 1 →
      right < (l.length : Int) →
      (∀ j : Nat, j < left → ∀ v, l[j]? = some v → v < item) →
      (∀ j : Nat, right < (j : Int) → ∀ v, l[j]? = some v → item < v) →
      (∃ i : Nat, i < l.length ∧ l[i]? = some item ∧
          bsGo l numCmp item left right = (i : Int))
        ∨ (∃ p : Nat, p ≤ l.length ∧
            bsGo l numCmp item left right = -1 - (p : Int) ∧
            (∀ j : Nat, j < p → ∀ v, l[j]? = some v → v < item) ∧
            (∀ j : Nat, p ≤ j → ∀ v, l[j]? = some v → item < v)) := by
  have hPW := List.pairwise_iff_getElem.mp hsort
  intro n
  induction n with
  | zero =>
    intro left right hn hl hr hL hR
    right
    refine ⟨left, by omega, bsGo_terminal l numCmp item left right (by omega), hL, ?_⟩
    intro j hj v hv
    exact hR j (by omega) v hv
  | succ n ih =>
    intro left right hn hl hr hL hR
    by_cases hlr : (left : Int) ≤ right
    · set mid := (left + right.toNat) / 2 with hmid
      have hmidlb : left ≤ mid := by omega
      have hmidub : (mid : Int) ≤ right := by omega
      have hmidlen : mid < l.length := by omega
      have hsome : l[mid]? = some l[mid] := List.getElem?_eq_getElem hmidlen
      have hstep := bsGo_step l numCmp item left right hlr l[mid] hsome
      rw [← hmid] at hstep
      rcases lt_trichotomy l[mid] item with hc | hc | hc
      · have hstep2 : bsGo l numCmp item left right =
            bsGo l numCmp item (mid + 1) right := by
          rw [hstep]
          show (if l[mid] - item = 0 then ((mid : Nat) : Int)
                else if l[mid] - item < 0 then bsGo l numCmp item (mid + 1) right
                else bsGo l numCmp item left ((mid : Int) - 1)) = _
          rw [if_neg (by omega), if_pos (by omega)]
        rw [hstep2]
        refine ih (mid + 1) right (by omega) (by omega) hr ?_ hR
        intro j hj v hv
        obtain ⟨hjlen, hvj⟩ := List.getElem?_eq_some.mp hv
        rcases Nat.lt_or_ge j mid with hjm | hjm
        · have := hPW j mid hjlen hmidlen hjm
          omega
        · have hjeq : j = mid := by omega
          subst hjeq
          omega
      · left
        refine ⟨mid, hmidlen, by rw [hsome, hc], ?_⟩
        rw [hstep]
        show (if l[mid] - item = 0 then ((mid : Nat) : Int)
              else if l[mid] - item < 0 then bsGo l numCmp item (mid + 1) right
              else bsGo l numCmp item left ((mid : Int) - 1)) = _
        rw [if_pos (by omega)]
      · have hstep2 : bsGo l numCmp item left right =
            bsGo l numCmp item left ((mid : Int) - 1) := by
          rw [hstep]
          show (if l[mid] - item = 0 then ((mid : Nat) : Int)
                else if l[mid] - item < 0 then bsGo l numCmp item (mid + 1) right
                else bsGo l numCmp item left ((mid : Int) - 1)) = _
          rw [if_neg (by omega), if_neg (by omega)]
        rw [hstep2]
        refine ih left ((mid : Int) - 1) (by omega) (by omega) (by omega) hL ?_
        intro j hj v hv
        obtain ⟨hjlen, hvj⟩ := List.getElem?_eq_some.mp hv
        rcases Nat.lt_or_ge mid j with hjm | hjm
        · have := hPW mid j hmidlen hjlen hjm
          omega
        · have hjeq : j = mid := by omega
          subst hjeq
          omega
    · right
      refine ⟨left, by omega, bsGo_terminal l numCmp item left right hlr, hL, ?_⟩
      intro j hj v hv
      exact hR j (by omega) v hv

/-- Characterisation of the exported `binarySearch` on a strictly
ascending number list. -/
theorem binarySearch_spec (l : List Int) (item : Int)
    (hsort : l.Pairwise (· < ·)) :
    (∃ i : Nat, i < l.length ∧ l[i]? = some item ∧
        binarySearch l numCmp item = (i : Int))
      ∨ (∃ p : Nat, p ≤ l.length ∧
          binarySearch l numCmp item = -1 - (p : Int) ∧
          (∀ j : Nat, j < p → ∀ v, l[j]? = some v → v < item) ∧
          (∀ j : Nat, p ≤ j → ∀ v, l[j]? = some v → item < v)) := by
  have h := bsGo_spec l item hsort (((l.length : Int) - 1 + 1 - 0).toNat) 0
    ((l.length : Int) - 1) le_rfl (by omega) (by omega)
    (by intro j hj v hv; omega)
    (by
      intro j hj v hv
      obtain ⟨hjlen, _⟩ := List.getElem?_eq_some.mp hv
      omega)
  simpa [binarySearch] using h

/-- One unfolding step of `bsGoChecked` when the loop is entered and the
probed slot holds `v`. -/
theorem bsGoChecked_step {α β : Type} (l : List α) (cmp : α → β → Option Int)
    (item : β) (left : Nat) (right : Int) (hlr : (left : Int) ≤ right)
    (v : α) (hv : l[(left + right.toNat) / 2]? = some v) :
    bsGoChecked l cmp item left right =
      match cmp v item with
      | some c =>
        if c = 0 then some (((left + right.toNat) / 2 : Nat) : Int)
        else if c < 0 then bsGoChecked l cmp item ((left + right.toNat) / 2 + 1) right
        else bsGoChecked l cmp item left ((((left + right.toNat) / 2 : Nat) : Int) - 1)
      | none => bsGoChecked l cmp item left ((((left + right.toNat) / 2 : Nat) : Int) - 1) := by
  conv_lhs => rw [bsGoChecked]
  rw [dif_pos hlr]
  simp only [hv]

/-- `bsGoChecked` when the loop condition fails. -/
theorem bsGoChecked_terminal {α β : Type} (l : List α)
    (cmp : α → β → Option Int) (item : β) (left : Nat) (right : Int)
    (hlr : ¬ (left : Int) ≤ right) :
    bsGoChecked l cmp item left right = some (-1 - (left : Int)) := by
  rw [bsGoChecked, dif_neg hlr]

/-- As long as the initial window lies inside the array, the
instrumented search never reads out of bounds and agrees with `bsGo`
(for any comparator, including a NaN-producing one). -/
theorem bsGoChecked_eq {α β : Type} (l : List α) (cmp : α → β → Option Int)
    (item : β) :
    ∀ (n : Nat) (left : Nat) (right : Int),
      (right + 1 - left).toNat ≤ n → right < (l.length : Int) →
      bsGoChecked l cmp item left right = some (bsGo l cmp item left right) := by
  intro n
  induction n with
  | zero =>
    intro left right hn hr
    rw [bsGoChecked_terminal l cmp item left right (by omega),
      bsGo_terminal l cmp item left right (by omega)]
  | succ n ih =>
    intro left right hn hr
    by_cases hlr : (left : Int) ≤ right
    · set mid := (left + right.toNat) / 2 with hmid
      have hmidlen : mid < l.length := by omega
      have hsome : l[mid]? = some l[mid] := List.getElem?_eq_getElem hmidlen
      rw [bsGoChecked_step l cmp item left right hlr l[mid] hsome,
        bsGo_step l cmp item left right hlr l[mid] hsome]
      rw [← hmid]
      cases hc : cmp l[mid] item with
      | none => exact ih left ((mid : Int) - 1) (by omega) (by omega)
      | some c =>
        by_cases hc0 : c = 0
        · simp [hc0]
        · by_cases hcneg : c < 0
          · simp only [if_neg hc0, if_pos hcneg]
            exact ih (mid + 1) right (by omega) hr
          · simp only [if_neg hc0, if_neg hcneg]
            exact ih left ((mid : Int) - 1) (by omega) (by omega)
    · rw [bsGoChecked_terminal l cmp item left right hlr,
        bsGo_terminal l cmp item left right hlr]

/-- Claim C10: on a strictly ascending number list, `binarySearch` with
the numeric comparator `(a, b) => a - b` either returns an in-bounds
index holding the item, or `-1 - p` for the unique sorted insertion
position `p`; and (second conjunct) the search never reads outside the
array: the bounds-instrumented variant returns the same result instead
of failing. -/
theorem claim_C10_binarySearch (l : List Int) (item : Int)
    (hsort : l.Pairwise (· < ·)) :
    ((∃ i : Nat, i < l.length ∧ l[i]? = some item ∧
        binarySearch l numCmp item = (i : Int))
      ∨ (∃ p : Nat, p ≤ l.length ∧
          binarySearch l numCmp item = -1 - (p : Int) ∧
          (∀ j : Nat, j < p → ∀ v, l[j]? = some v → v < item) ∧
          (∀ j : Nat, p ≤ j → ∀ v, l[j]? = some v → item < v) ∧
          (∀ q : Nat, q ≤ l.length →
            (∀ j : Nat, j < q → ∀ v, l[j]? = some v → v < item) →
            (∀ j : Nat, q ≤ j → ∀ v, l[j]? = some v → item < v) → q = p)))
    ∧ binarySearchChecked l numCmp item = some (binarySearch l numCmp item) := by
  constructor
  · rcases binarySearch_spec l item hsort with h | ⟨p, hp, hv, hlo, hhi⟩
    · exact Or.inl h
    · refine Or.inr ⟨p, hp, hv, hlo, hhi, ?_⟩
      intro q hq hqlo hqhi
      by_contra hne
      rcases Nat.lt_or_ge q p with hlt | hge
      · have hqlen : q < l.length := by omega
        have hsome : l[q]? = some l[q] := List.getElem?_eq_getElem hqlen
        have h1 := hlo q hlt _ hsome
        have h2 := hqhi q le_rfl _ hsome
        omega
      · have hlt : p < q := by omega
        have hplen : p < l.length := by omega
        have hsome : l[p]? = some l[p] := List.getElem?_eq_getElem hplen
        have h1 := hqlo p hlt _ hsome
        have h2 := hhi p le_rfl _ hsome
        omega
  · have h := bsGoChecked_eq l numCmp item (((l.length : Int) - 1 + 1 - 0).toNat)
      0 ((l.length : Int) - 1) le_rfl (by omega)
    simpa [binarySearchChecked, binarySearch] using h

/-- Closed witness for claim C10 on the list `[1, 3, 5]` and item `4`. -/
theorem claim_C10_binarySearch_witness :
    ([(1 : Int), 3, 5].Pairwise (· < ·)) ∧
    (((∃ i : Nat, i < [(1 : Int), 3, 5].length ∧
        [(1 : Int), 3, 5][i]? = some 4 ∧
        binarySearch [(1 : Int), 3, 5] numCmp 4 = (i : Int))
      ∨ (∃ p : Nat, p ≤ [(1 : Int), 3, 5].length ∧
          binarySearch [(1 : Int), 3, 5] numCmp 4 = -1 - (p : Int) ∧
          (∀ j : Nat, j < p → ∀ v, [(1 : Int), 3, 5][j]? = some v → v < 4) ∧
          (∀ j : Nat, p ≤ j → ∀ v, [(1 : Int), 3, 5][j]? = some v → 4 < v) ∧
          (∀ q : Nat, q ≤ [(1 : Int), 3, 5].length →
            (∀ j : Nat, j < q → ∀ v, [(1 : Int), 3, 5][j]? = some v → v < 4) →
            (∀ j : Nat, q ≤ j → ∀ v, [(1 : Int), 3, 5][j]? = some v → 4 < v) →
            q = p)))
    ∧ binarySearchChecked [(1 : Int), 3, 5] numCmp 4 =
        some (binarySearch [(1 : Int), 3, 5] numCmp 4)) :=
  ⟨by decide, claim_C10_binarySearch [1, 3, 5] 4 (by decide)⟩

/-- Successful `splice` with a plain-string insertion, in closed form. -/
theorem splice_str_ok (ms : MappedSource) (offset len : Int) (s : List Char)
    (h0 : ¬ offset < 0) (h1 : ¬ offset + len > (ms.source.length : Int)) :
    ms.splice offset len (.str s) = .ok
      { source := jsSubstring ms.source 0 offset ++ s
          ++ jsSubstring ms.source (offset + len) (ms.source.length : Int)
        map := updateMapLoop offset len (s.length : Int) ms.map } := by
  unfold MappedSource.splice
  rw [if_neg h0, if_neg h1]

/-- Successful `splice` with a `MappedSource` insertion, in closed form:
because the comparator compares a point object with a number (NaN), the
insertion position is always 0, i.e. the incoming batch is prepended. -/
theorem splice_ms_ok (ms : MappedSource) (offset len : Int) (b : MappedSource)
    (h0 : ¬ offset < 0) (h1 : ¬ offset + len > (ms.source.length : Int)) :
    ms.splice offset len (.ms b) = .ok
      { source := jsSubstring ms.source 0 offset ++ b.source
          ++ jsSubstring ms.source (offset + len) (ms.source.length : Int)
        map := (b.map.map fun x => { x with offset := x.offset + offset })
          ++ updateMapLoop offset len (b.source.length : Int) ms.map } := by
  unfold MappedSource.splice
  rw [if_neg h0, if_neg h1]
  cases hb : b.map with
  | nil => simp [hb]
  | cons m0 rest =>
    simp only [hb, binarySearch_pointCmp, listSpliceIns]
    norm_num

/-- Claim C3: `splice(offset, deleteLength, insertion)` fails if and
only if `offset < 0` or `offset + deleteLength` exceeds the current
text length.  (Mutation is modelled by returning the new state, so a
failing call trivially leaves the original buffer value untouched: both
range checks precede every state change, as in the source.) -/
theorem claim_C3_splice_error_iff (ms : MappedSource) (offset len : Int)
    (arg : SpliceArg) :
    (∃ e, ms.splice offset len arg = .error e) ↔
      offset < 0 ∨ (ms.source.length : Int) < offset + len := by
  unfold MappedSource.splice
  split_ifs with h1 h2
  · exact ⟨fun _ => Or.inl h1, fun _ => ⟨"invalid splice offset", rfl⟩⟩
  · exact ⟨fun _ => Or.inr (by omega), fun _ => ⟨"invalid splice end offset", rfl⟩⟩
  · constructor
    · rintro ⟨e, he⟩
      cases he
    · intro h
      omega

/-- Claim C4, counterexample: `substring(-1, 3)` on a 5-character buffer
does not raise any error — it returns a normal `MappedSource` (note the
mapping point re-based by `-(-1)`, i.e. moved to offset 1). -/
theorem claim_C4_cex :
    msHello.substring (-1) 3 = ⟨"Hel".data, [⟨1, "n", "s", 1, 0⟩]⟩ := by
  decide

/-- Claim C4 as amended: `substring` performs no argument validation and
never raises; for every argument pair the returned text is some
in-range slice of the source text (JS clamp-and-swap semantics), and the
call never mutates the source buffer (it builds a fresh value). -/
theorem claim_C4_substring_never_fails (ms : MappedSource) (start fin : Int) :
    ∃ lo hi : Nat, lo ≤ hi ∧ hi ≤ ms.source.length ∧
      (ms.substring start fin).source = (ms.source.take hi).drop lo := by
  have ha : min (max start 0) ((ms.source.length : Int)) ≤ (ms.source.length : Int) :=
    min_le_right _ _
  have hb : min (max fin 0) ((ms.source.length : Int)) ≤ (ms.source.length : Int) :=
    min_le_right _ _
  have ha0 : 0 ≤ min (max start 0) ((ms.source.length : Int)) :=
    le_min (le_max_right _ _) (by positivity)
  have hb0 : 0 ≤ min (max fin 0) ((ms.source.length : Int)) :=
    le_min (le_max_right _ _) (by positivity)
  refine ⟨(min (min (max start 0) ((ms.source.length : Int)))
            (min (max fin 0) ((ms.source.length : Int)))).toNat,
          (max (min (max start 0) ((ms.source.length : Int)))
            (min (max fin 0) ((ms.source.length : Int)))).toNat, ?_, ?_, rfl⟩
  · have := min_le_max (a := min (max start 0) ((ms.source.length : Int)))
      (b := min (max fin 0) ((ms.source.length : Int)))
    omega
  · have : max (min (max start 0) ((ms.source.length : Int)))
        (min (max fin 0) ((ms.source.length : Int))) ≤ (ms.source.length : Int) :=
      max_le ha hb
    omega

/-- Claim C5, counterexample: `delete(3, 6)` on `"Hello World!"` with
points at 6 and 11 yields text `"Helld!"` (12 − 6 = 6 characters remain)
and one surviving point at offset 5 — not text `"Hel"` with an empty
sequence as claimed. -/
theorem claim_C5_cex :
    msHW.delete 3 6 = .ok ⟨"Helld!".data, [⟨5, "p11", "s", 1, 1⟩]⟩ ∧
    "Helld!".data ≠ "Hel".data ∧
    ([⟨5, "p11", "s", 1, 1⟩] : List MapPoint) ≠ [] := by
  decide

/-- Claim C5 as amended: `delete(3, 6)` (range `[3, 9)`) yields text
`"Helld!"` and the single point formerly at 11 shifted to 5; the outcome
the claim describes — text `"Hel"` and an empty sequence — is produced
by `delete(3, 9)` (range `[3, 12)`). -/
theorem claim_C5_delete_results :
    msHW.delete 3 6 = .ok ⟨"Helld!".data, [⟨5, "p11", "s", 1, 1⟩]⟩ ∧
    msHW.delete 3 9 = .ok ⟨"Hel".data, []⟩ := by
  decide

/-- Claim C1 (code bug): splicing in a `MappedSource` whose map is
non-empty breaks the ascending-offset invariant whenever the receiver
has a point strictly before the splice offset, because
`binarySearch(this.map, (a, b) => a - b, ...)` compares a point object
against a number (NaN), so the batch is always inserted at index 0.
Here `"Hello World!"` with points at 2 and 11 receives `"there "` (one
point at 0) at offset 6 and ends with offsets `[6, 2, 17]`. -/
theorem claim_C1_mapped_insert_breaks_sorted :
    msEarlyPoint.insert 6 (.ms msThereOne) = .ok
      ⟨"Hello there World!".data,
        [⟨6, "b0", "t", 2, 0⟩, ⟨2, "a2", "s", 1, 0⟩, ⟨17, "a11", "s", 1, 1⟩]⟩ ∧
    ¬ List.Pairwise (fun p q : MapPoint => p.offset ≤ q.offset)
        [⟨6, "b0", "t", 2, 0⟩, ⟨2, "a2", "s", 1, 0⟩, ⟨17, "a11", "s", 1, 1⟩] := by
  constructor
  · show msEarlyPoint.splice 6 0 (.ms msThereOne) = _
    rw [splice_ms_ok _ _ _ _ (by decide) (by decide)]
    decide
  · decide

/-- Claim C6: inserting buffer `B` (`"there "`, points at 0 and 5) into
`"Hello World!"` (points at 6 and 11) at offset 6 yields
`"Hello there World!"` with points at offsets 6, 11, 12, 17 in that
array order — the incoming batch sits contiguously at one position
(index 0, as computed from the `binarySearch` call). -/
theorem claim_C6_merge_on_insert :
    msHW.insert 6 (.ms msThere) = .ok
      ⟨"Hello there World!".data,
        [⟨6, "b0", "t", 2, 0⟩, ⟨11, "b5", "t", 2, 5⟩,
         ⟨12, "p6", "s", 1, 0⟩, ⟨17, "p11", "s", 1, 1⟩]⟩ ∧
    ([6, 11, 12, 17] : List Int).Pairwise (· < ·) := by
  constructor
  · show msHW.splice 6 0 (.ms msThere) = _
    rw [splice_ms_ok _ _ _ _ (by decide) (by decide)]
    decide
  · decide

/-- Claim C2: under the splice preconditions every pre-existing point
strictly before `offset` is kept unchanged, every point inside
`[offset, offset + deleteLength)` is removed, and every point at or
beyond the deleted span is shifted by exactly
`insertedLength - deleteLength` — for a plain-string insertion the
resulting map is exactly the filtered/shifted original, and for a
`MappedSource` insertion the transformed original points all survive
unchanged next to the incoming batch; in particular a pure string
insertion of length L at `o` shifts points with `offset ≥ o` by `+L`
and leaves the others alone. -/
theorem claim_C2_point_policy (ms : MappedSource) (offset len : Int)
    (h0 : 0 ≤ offset) (h1 : offset + len ≤ (ms.source.length : Int)) :
    (∀ s : List Char, ∃ r, ms.splice offset len (.str s) = .ok r ∧
        r.map = ms.map.filterMap (specSplicePointFate offset len (s.length : Int)))
    ∧ (∀ b : MappedSource, ∃ r, ms.splice offset len (.ms b) = .ok r ∧
        r.map = (b.map.map fun x => { x with offset := x.offset + offset })
          ++ ms.map.filterMap (specSplicePointFate offset len (b.source.length : Int)))
    ∧ (∀ (o : Int) (s : List Char), 0 ≤ o → o ≤ (ms.source.length : Int) →
        ∃ r, ms.insert o (.str s) = .ok r ∧
          r.map = ms.map.map fun p =>
            if p.offset < o then p
            else { p with offset := p.offset + (s.length : Int) }) := by
  refine ⟨?_, ?_, ?_⟩
  · intro s
    exact ⟨_, splice_str_ok ms offset len s (by omega) (by omega), by
      simp [updateMapLoop_eq_filterMap]⟩
  · intro b
    exact ⟨_, splice_ms_ok ms offset len b (by omega) (by omega), by
      simp [updateMapLoop_eq_filterMap]⟩
  · intro o s ho0 ho1
    refine ⟨_, splice_str_ok ms o 0 s (by omega) (by omega), ?_⟩
    show updateMapLoop o 0 (s.length : Int) ms.map = _
    rw [updateMapLoop_eq_filterMap]
    induction ms.map with
    | nil => rfl
    | cons m rest ih =>
      by_cases hm : m.offset < o
      · simp [specSplicePointFate, List.filterMap_cons, hm, ih]
      · have hm2 : ¬ m.offset < o + 0 := by omega
        simp only [specSplicePointFate, List.filterMap_cons, List.map_cons,
          if_neg hm, if_neg hm2, ih]
        norm_num

/-- Closed witness for claim C2 at a concrete buffer and splice. -/
theorem claim_C2_point_policy_witness :
    ((0 : Int) ≤ 3 ∧ (3 : Int) + 4 ≤ (msHW.source.length : Int)) ∧
    (∃ r, msHW.splice 3 4 (.str "XY".data) = .ok r ∧
      r.map = msHW.map.filterMap (specSplicePointFate 3 4 ("XY".data.length : Int))) :=
  ⟨⟨by decide, by decide⟩,
    (claim_C2_point_policy msHW 3 4 (by decide) (by decide)).1 "XY".data⟩

/-- Claim C7: for `0 ≤ start ≤ end ≤ length`, `substring(start, end)`
returns the text slice `[start, end)` together with exactly the points
whose offset lies in `[start, end]` (both boundaries included), each
re-based by `-start`; the source buffer is not touched (the operation
builds a fresh value).  The last conjunct is the spec's concrete
example: slicing `[6, 11]` out of `"Hello World!"` with points at 6 and
11 gives `"World"` with points at 0 and 5. -/
theorem claim_C7_substring (ms : MappedSource) (start fin : Int)
    (h0 : 0 ≤ start) (h1 : start ≤ fin) (h2 : fin ≤ (ms.source.length : Int)) :
    ((ms.substring start fin).source =
        (ms.source.take fin.toNat).drop start.toNat
      ∧ (ms.substring start fin).map =
          (ms.map.filter fun x => decide (start ≤ x.offset ∧ x.offset ≤ fin)).map
            (fun x => { x with offset := x.offset - start })
      ∧ (∀ p, p ∈ (ms.substring start fin).map ↔
          ∃ q ∈ ms.map, start ≤ q.offset ∧ q.offset ≤ fin ∧
            p = { q with offset := q.offset - start }))
    ∧ msHW.substring 6 11 =
        ⟨"World".data, [⟨0, "p6", "s", 1, 0⟩, ⟨5, "p11", "s", 1, 1⟩]⟩ := by
  refine ⟨⟨?_, ?_, ?_⟩, by decide⟩
  · have ha : min (max start 0) ((ms.source.length : Int)) = start := by
      rw [max_eq_left h0]
      exact min_eq_left (le_trans h1 h2)
    have hb : min (max fin 0) ((ms.source.length : Int)) = fin := by
      rw [max_eq_left (le_trans h0 h1)]
      exact min_eq_left h2
    show jsSubstring ms.source start fin = _
    rw [jsSubstring]
    simp only [ha, hb, min_eq_left h1, max_eq_right h1]
  · show (ms.map.filter fun x =>
        decide (start ≤ x.offset) && decide (x.offset ≤ fin)).map _ = _
    have hfun : (fun x : MapPoint => decide (start ≤ x.offset) && decide (x.offset ≤ fin)) =
        fun x : MapPoint => decide (start ≤ x.offset ∧ x.offset ≤ fin) := by
      funext x
      by_cases hA : start ≤ x.offset <;> by_cases hB : x.offset ≤ fin <;> simp [hA, hB]
    rw [hfun]
  · intro p
    show p ∈ (ms.map.filter fun x =>
        decide (start ≤ x.offset) && decide (x.offset ≤ fin)).map _ ↔ _
    simp only [List.mem_map, List.mem_filter, Bool.and_eq_true, decide_eq_true_eq]
    constructor
    · rintro ⟨q, ⟨hq, hs, hf⟩, rfl⟩
      exact ⟨q, hq, hs, hf, rfl⟩
    · rintro ⟨q, hq, hs, hf, rfl⟩
      exact ⟨q, ⟨hq, hs, hf⟩, rfl⟩

/-- Closed witness for claim C7: the spec's `"World"` example satisfies
the hypotheses, and the slice is what the theorem states. -/
theorem claim_C7_substring_witness :
    ((0 : Int) ≤ 6 ∧ (6 : Int) ≤ 11 ∧ (11 : Int) ≤ (msHW.source.length : Int)) ∧
    (msHW.substring 6 11).source =
      (msHW.source.take (11 : Int).toNat).drop (6 : Int).toNat :=
  ⟨⟨by decide, by decide, by decide⟩,
    ((claim_C7_substring msHW 6 11 (by decide) (by decide) (by decide)).1).1⟩

/-- Every line start recorded by the constructor scan lies strictly
beyond the scan position and within the text. -/
theorem lineOffsetsGo_bounds (i : Nat) (s : List Char) :
    ∀ x ∈ lineOffsetsGo i s, (i : Int) < x ∧ x ≤ (i : Int) + s.length := by
  induction i, s using lineOffsetsGo.induct with
  | case1 i => simp [lineOffsetsGo]
  | case2 i rest ih =>
    intro x hx
    simp only [lineOffsetsGo, List.mem_cons] at hx
    simp only [List.length_cons]
    rcases hx with rfl | hx
    · push_cast
      omega
    · have := ih x hx
      push_cast at this ⊢
      omega
  | case3 i c rest hne hcond ih =>
    intro x hx
    rw [lineOffsetsGo.eq_3 i c rest hne, if_pos hcond] at hx
    simp only [List.length_cons]
    rcases List.mem_cons.mp hx with rfl | hx
    · push_cast
      omega
    · have := ih x hx
      push_cast at this ⊢
      omega
  | case4 i c rest hne hcond ih =>
    intro x hx
    rw [lineOffsetsGo.eq_3 i c rest hne, if_neg hcond] at hx
    simp only [List.length_cons]
    have := ih x hx
    push_cast at this ⊢
    omega

/-- The scan produces a strictly increasing list. -/
theorem lineOffsetsGo_chain (i : Nat) (s : List Char) :
    List.Chain' (· < ·) (lineOffsetsGo i s) := by
  induction i, s using lineOffsetsGo.induct with
  | case1 i => simp [lineOffsetsGo]
  | case2 i rest ih =>
    rw [lineOffsetsGo.eq_2]
    rw [List.chain'_cons']
    refine ⟨?_, ih⟩
    intro b hb
    have := (lineOffsetsGo_bounds (i + 2) rest b (List.mem_of_mem_head? hb)).1
    push_cast at this ⊢
    omega
  | case3 i c rest hne hcond ih =>
    rw [lineOffsetsGo.eq_3 i c rest hne, if_pos hcond]
    rw [List.chain'_cons']
    refine ⟨?_, ih⟩
    intro b hb
    have := (lineOffsetsGo_bounds (i + 1) rest b (List.mem_of_mem_head? hb)).1
    push_cast at this ⊢
    omega
  | case4 i c rest hne hcond ih =>
    rw [lineOffsetsGo.eq_3 i c rest hne, if_neg hcond]
    exact ih

/-- `lineOffsets` of a constructed `LineMap` is strictly ascending. -/
theorem lineOffsets_sorted (s : List Char) :
    (0 :: lineOffsetsGo 0 s).Pairwise (· < ·) := by
  rw [← List.chain'_iff_pairwise]
  rw [List.chain'_cons']
  refine ⟨?_, lineOffsetsGo_chain 0 s⟩
  intro b hb
  have := (lineOffsetsGo_bounds 0 s b (List.mem_of_mem_head? hb)).1
  omega

/-- Every recorded line start lies in `[0, length]`. -/
theorem lineOffsets_bounds (s : List Char) :
    ∀ x ∈ 0 :: lineOffsetsGo 0 s, 0 ≤ x ∧ x ≤ (s.length : Int) := by
  intro x hx
  rcases List.mem_cons.mp hx with rfl | hx
  · constructor <;> omega
  · have := lineOffsetsGo_bounds 0 s x hx
    omega

theorem ofText_lineOffsets (s : List Char) (lb cb : Int) :
    (LineMap.ofText s lb cb).lineOffsets = 0 :: lineOffsetsGo 0 s := rfl

theorem ofText_totalLength (s : List Char) (lb cb : Int) :
    (LineMap.ofText s lb cb).totalLength = (s.length : Int) := rfl

theorem ofText_lineBase (s : List Char) (lb cb : Int) :
    (LineMap.ofText s lb cb).lineBase = lb := rfl

theorem ofText_columnBase (s : List Char) (lb cb : Int) :
    (LineMap.ofText s lb cb).columnBase = cb := rfl

/-- Characterisation of `fromOffset` on a `LineMap` whose offset table
is strictly ascending and starts with 0: for a non-negative offset it
returns the index of the greatest recorded line start `v ≤ offset`
together with the column `columnBase + offset - v`. -/
theorem fromOffset_char (lm : LineMap) (offset : Int)
    (hsort : lm.lineOffsets.Pairwise (· < ·))
    (hzero : lm.lineOffsets[0]? = some 0)
    (h0 : 0 ≤ offset) :
    ∃ (idx : Nat) (v : Int),
      lm.lineOffsets[idx]? = some v ∧ v ≤ offset ∧
      (∀ j : Nat, idx < j → ∀ w, lm.lineOffsets[j]? = some w → offset < w) ∧
      lm.fromOffset offset =
        (lm.lineBase + (idx : Int), some (lm.columnBase + offset - v)) := by
  have hlen : 0 < lm.lineOffsets.length := by
    by_contra h
    rw [List.getElem?_eq_none (by omega)] at hzero
    cases hzero
  rcases binarySearch_spec lm.lineOffsets offset hsort with
    ⟨i, hi, hsome, hbs⟩ | ⟨p, hp, hbs, hlo, hhi⟩
  · refine ⟨i, offset, hsome, le_rfl, ?_, ?_⟩
    · intro j hj w hw
      obtain ⟨hjlen, hvj⟩ := List.getElem?_eq_some.mp hw
      obtain ⟨_, hvi⟩ := List.getElem?_eq_some.mp hsome
      have := List.pairwise_iff_getElem.mp hsort i j hi hjlen hj
      omega
    · simp only [LineMap.fromOffset]
      rw [hbs]
      rw [if_neg (show ¬ (i : Int) < 0 by omega)]
      by_cases hin : (i : Int) + 1 < (lm.lineOffsets.length : Int)
      · rw [if_pos hin]
        rw [show lm.lineBase + ((i : Int) + 1) - 1 = lm.lineBase + (i : Int) from by ring]
        rw [show (i : Int) + 1 - 1 = (i : Int) from by ring]
        rw [jsIdx, if_neg (show ¬ (i : Int) < 0 by omega), Int.toNat_natCast]
        rw [hsome]
        rfl
      · rw [if_neg hin]
        rw [show lm.lineBase + (lm.lineOffsets.length : Int) - 1
              = lm.lineBase + (i : Int) from by omega]
        rw [show (lm.lineOffsets.length : Int) - 1 = (i : Int) from by omega]
        rw [jsIdx, if_neg (show ¬ (i : Int) < 0 by omega), Int.toNat_natCast]
        rw [hsome]
        rfl
  · have hp1 : 1 ≤ p := by
      by_contra h
      have := hhi 0 (by omega) 0 hzero
      omega
    have hplen : p - 1 < lm.lineOffsets.length := by omega
    have hsome : lm.lineOffsets[p - 1]? = some lm.lineOffsets[p - 1] :=
      List.getElem?_eq_getElem hplen
    refine ⟨p - 1, lm.lineOffsets[p - 1], hsome, ?_, ?_, ?_⟩
    · have := hlo (p - 1) (by omega) _ hsome
      omega
    · intro j hj w hw
      exact hhi j (by omega) w hw
    · simp only [LineMap.fromOffset]
      rw [hbs]
      rw [if_pos (show -1 - (p : Int) < 0 by omega)]
      rw [show -(-1 - (p : Int)) - 1 = (p : Int) from by ring]
      by_cases hin : (p : Int) < (lm.lineOffsets.length : Int)
      · rw [if_pos hin]
        rw [show lm.lineBase + (p : Int) - 1
              = lm.lineBase + ((p - 1 : Nat) : Int) from by omega]
        rw [show (p : Int) - 1 = ((p - 1 : Nat) : Int) from by omega]
        rw [jsIdx, if_neg (show ¬ ((p - 1 : Nat) : Int) < 0 by omega), Int.toNat_natCast]
        rw [hsome]
        rfl
      · rw [if_neg hin]
        rw [show lm.lineBase + (lm.lineOffsets.length : Int) - 1
              = lm.lineBase + ((p - 1 : Nat) : Int) from by omega]
        rw [show (lm.lineOffsets.length : Int) - 1 = ((p - 1 : Nat) : Int) from by omega]
        rw [jsIdx, if_neg (show ¬ ((p - 1 : Nat) : Int) < 0 by omega), Int.toNat_natCast]
        rw [hsome]
        rfl

/-- `toOffset` at a valid internal line index: the clamp guard and the
upper clamp are both inactive. -/
theorem toOffset_of_idx (lm : LineMap) (idx : Nat) (v c : Int)
    (hv : lm.lineOffsets[idx]? = some v)
    (hle : v + (c - lm.columnBase) ≤ lm.totalLength) :
    lm.toOffset (lm.lineBase + (idx : Int)) c = some (v + (c - lm.columnBase)) := by
  obtain ⟨hlen, _⟩ := List.getElem?_eq_some.mp hv
  simp only [LineMap.toOffset]
  rw [show lm.lineBase + (idx : Int) - lm.lineBase = (idx : Int) from by ring]
  rw [if_neg (show ¬ (idx : Int) > (lm.lineOffsets.length : Int) by omega)]
  rw [jsIdx, if_neg (show ¬ (idx : Int) < 0 by omega), Int.toNat_natCast]
  rw [hv]
  show some (if v + (c - lm.columnBase) > lm.totalLength
      then lm.totalLength else v + (c - lm.columnBase)) = _
  rw [if_neg (by omega)]

/-- Claim C9: for every text (any mix of terminators) and every
numbering base, the two conversions round-trip: `fromOffset` after
`toOffset` restores every recorded line-start position, and `toOffset`
after `fromOffset` restores every offset in `[0, length]` — proved here
without the claim's terminator-ambiguity exclusion, so in particular on
the excluded-set's complement as claimed. -/
theorem claim_C9_roundtrip (s : List Char) (lb cb : Int) :
    (∀ idx : Nat, idx < (LineMap.ofText s lb cb).lineOffsets.length →
      ∃ off : Int,
        (LineMap.ofText s lb cb).toOffset (lb + (idx : Int)) cb = some off ∧
        (LineMap.ofText s lb cb).fromOffset off = (lb + (idx : Int), some cb))
    ∧ (∀ offset : Int, 0 ≤ offset →
        offset ≤ (LineMap.ofText s lb cb).totalLength →
        ∃ c : Int,
          ((LineMap.ofText s lb cb).fromOffset offset).2 = some c ∧
          (LineMap.ofText s lb cb).toOffset
            ((LineMap.ofText s lb cb).fromOffset offset).1 c = some offset) := by
  have hsort : (LineMap.ofText s lb cb).lineOffsets.Pairwise (· < ·) := by
    rw [ofText_lineOffsets]
    exact lineOffsets_sorted s
  have hzero : (LineMap.ofText s lb cb).lineOffsets[0]? = some 0 := by
    rw [ofText_lineOffsets]
    simp
  have hPW := List.pairwise_iff_getElem.mp hsort
  constructor
  · intro idx hidx
    have hvsome : (LineMap.ofText s lb cb).lineOffsets[idx]? =
        some ((LineMap.ofText s lb cb).lineOffsets[idx]) :=
      List.getElem?_eq_getElem hidx
    have hvmem : (LineMap.ofText s lb cb).lineOffsets[idx] ∈
        0 :: lineOffsetsGo 0 s := by
      rw [← ofText_lineOffsets s lb cb]
      exact List.getElem_mem hidx
    have hvb := lineOffsets_bounds s _ hvmem
    refine ⟨(LineMap.ofText s lb cb).lineOffsets[idx], ?_, ?_⟩
    · have h := toOffset_of_idx (LineMap.ofText s lb cb) idx
        ((LineMap.ofText s lb cb).lineOffsets[idx]) cb hvsome
        (by rw [ofText_totalLength, ofText_columnBase]; omega)
      rw [show (LineMap.ofText s lb cb).lineOffsets[idx]
            + (cb - (LineMap.ofText s lb cb).columnBase)
            = (LineMap.ofText s lb cb).lineOffsets[idx] from by
          rw [ofText_columnBase]; ring] at h
      rw [ofText_lineBase] at h
      exact h
    · obtain ⟨idx2, v2, hsome2, hle2, hgt2, heq2⟩ :=
        fromOffset_char (LineMap.ofText s lb cb)
          ((LineMap.ofText s lb cb).lineOffsets[idx]) hsort hzero (by omega)
      obtain ⟨hlen2, hv2⟩ := List.getElem?_eq_some.mp hsome2
      have hidx2 : idx2 = idx := by
        rcases Nat.lt_trichotomy idx2 idx with h | h | h
        · have := hgt2 idx h _ hvsome
          omega
        · exact h
        · have := hPW idx idx2 hidx hlen2 h
          omega
      subst hidx2
      have hv2eq : v2 = (LineMap.ofText s lb cb).lineOffsets[idx2] := by
        rw [hvsome] at hsome2
        cases hsome2
        rfl
      subst hv2eq
      rw [heq2, ofText_lineBase, ofText_columnBase]
      rw [show cb + (LineMap.ofText s lb cb).lineOffsets[idx2]
            - (LineMap.ofText s lb cb).lineOffsets[idx2] = cb from by ring]
  · intro offset h0 hle
    obtain ⟨idx, v, hsome, hvle, hgt, heq⟩ :=
      fromOffset_char (LineMap.ofText s lb cb) offset hsort hzero h0
    refine ⟨(LineMap.ofText s lb cb).columnBase + offset - v, ?_, ?_⟩
    · rw [heq]
    · rw [heq]
      have h := toOffset_of_idx (LineMap.ofText s lb cb) idx v
        ((LineMap.ofText s lb cb).columnBase + offset - v)
        hsome
        (by
          rw [show v + ((LineMap.ofText s lb cb).columnBase + offset - v
                - (LineMap.ofText s lb cb).columnBase) = offset from by ring]
          exact hle)
      rw [show v + ((LineMap.ofText s lb cb).columnBase + offset - v
            - (LineMap.ofText s lb cb).columnBase) = offset from by ring] at h
      exact h

/-- Closed witness for claim C9 on the mixed-terminator text
`"a\r\nb\rc\nd"` (line starts 0, 3, 5, 7) with 1-based lines: the
round-trips at line index 2 and at offset 4. -/
theorem claim_C9_roundtrip_witness :
    (2 < (LineMap.ofText "a\r\nb\rc\nd".data 1 0).lineOffsets.length ∧
      (∃ off : Int,
        (LineMap.ofText "a\r\nb\rc\nd".data 1 0).toOffset
          (1 + ((2 : Nat) : Int)) 0 = some off ∧
        (LineMap.ofText "a\r\nb\rc\nd".data 1 0).fromOffset off =
          (1 + ((2 : Nat) : Int), some 0)))
    ∧ ((0 : Int) ≤ 4 ∧ (4 : Int) ≤ (LineMap.ofText "a\r\nb\rc\nd".data 1 0).totalLength ∧
      (∃ c : Int,
        ((LineMap.ofText "a\r\nb\rc\nd".data 1 0).fromOffset 4).2 = some c ∧
        (LineMap.ofText "a\r\nb\rc\nd".data 1 0).toOffset
          ((LineMap.ofText "a\r\nb\rc\nd".data 1 0).fromOffset 4).1 c = some 4)) :=
  ⟨⟨by decide,
      (claim_C9_roundtrip "a\r\nb\rc\nd".data 1 0).1 2 (by decide)⟩,
    ⟨by decide, by decide,
      (claim_C9_roundtrip "a\r\nb\rc\nd".data 1 0).2 4 (by decide) (by decide)⟩⟩

/-- Claim C8 (code bug): the guard `line > this.lineOffsets.length` uses
`>` where the clamp needs `>=`, so for the text `"a\nb"` (line starts
`[0, 2]`, total length 3) the call `toOffset(2, 0)` reads
`lineOffsets[2]` as `undefined` and returns NaN (modelled `none`)
instead of the total length 3; a negative column is not clamped either:
`toOffset(0, -1)` returns `-1`. -/
theorem claim_C8_toOffset_not_clamped :
    (LineMap.ofText "a\nb".data 0 0).toOffset 2 0 = none ∧
    (LineMap.ofText "a\nb".data 0 0).toOffset 0 (-1) = some (-1) ∧
    (LineMap.ofText "a\nb".data 0 0).totalLength = 3 ∧
    (LineMap.ofText "a\nb".data 0 0).lineOffsets.length = 2 := by
  decide

end DtsTool
